import Mathlib

/-!
Verification development for the mktorrent-rs checksum engine and torrent
model (BitTorrent v2 metainfo builder).

The SHA-256 primitive (the external `ring` crate, wrapped by
`src/checksum/sha256.rs`) is modelled abstractly by a bundle `HashFn D`:
an arbitrary digest type `D`, a function hashing a byte sequence to a
digest (`sha256::Hasher::update`/`finish` over the accumulated bytes), a
binary combiner (`Hasher::combine_digests`, SHA256(a ‖ b)) and the
distinguished all-zero digest (`sha256::Digest::default()`).  Every
structural property of the engine is independent of the concrete hash.

Machine integers (`u8` layers, `u64` lengths, `usize` positions) are
modelled as `Nat`; none of the modelled quantities can overflow for
representable inputs (a merkle layer of 256 would need 2^256 blocks).

Rust `while` loops are modelled with an explicit fuel argument so that
every definition is structurally recursive and kernel-evaluable; each
fuel bound is chosen large enough that it is never exhausted on any
state the corresponding Rust loop terminates on, and the fuel-exhausted
branch is only reachable on states where the Rust loop would spin
forever (noted at each definition).
-/

namespace MkTorrent

/-- Abstract model of the SHA-256 primitives from `src/checksum/sha256.rs`:
`hashBytes` is the digest of a byte sequence, `combine` models
`Hasher::combine_digests` (SHA256 of the concatenation), `zero` models
`sha256::Digest::default()` (the all-zero digest). -/
structure HashFn (D : Type) where
  hashBytes : List Nat → D
  combine : D → D → D
  zero : D

/-- `Entry` from `src/checksum/merkle.rs`: a completed merkle subtree,
its layer and its digest. -/
structure Entry (D : Type) where
  layer : Nat
  digest : D
deriving DecidableEq, Repr

/-- `Entry::new`: a fresh layer-0 entry. -/
def Entry.new {D : Type} (digest : D) : Entry D := ⟨0, digest⟩

/-- `merkle::Hasher`: the incremental merkle accumulator.  The Rust `Vec`
pushes and pops at its end; we store the stack top-first, so the list
head is the most recently pushed entry and `stack.first()` (the oldest,
bottom entry) is `List.getLast?`. -/
structure Hasher (D : Type) where
  stack : List (Entry D)
deriving DecidableEq, Repr

variable {D : Type}

/-- `Hasher::new` / `Hasher::default`: empty stack. -/
def Hasher.new : Hasher D := ⟨[]⟩

/-- The merge loop inside `Hasher::add_block`: while the top two entries
share a layer, pop both and push `combine older newer` one layer higher.
Each merge shortens the stack, so a fuel of the stack length is enough;
the fuel-0 branch is unreachable. -/
def settleGo (H : HashFn D) : Nat → List (Entry D) → List (Entry D)
  | 0, s => s
  | fuel + 1, s =>
    match s with
    | b :: a :: rest =>
      if b.layer = a.layer then
        settleGo H fuel ({ layer := a.layer + 1, digest := H.combine a.digest b.digest } :: rest)
      else b :: a :: rest
    | s => s

/-- `Hasher::add_block`: push the digest as a layer-0 entry, then merge
equal-layer tops. -/
def Hasher.add_block (H : HashFn D) (hash : D) (h : Hasher D) : Hasher D :=
  ⟨settleGo H (h.stack.length + 1) (Entry.new hash :: h.stack)⟩

/-- `Hasher::current_layer`: the layer of the sole entry, if the stack is
a singleton. -/
def Hasher.current_layer (h : Hasher D) : Option Nat :=
  match h.stack with
  | [e] => some e.layer
  | _ => none

/-- `Hasher::is_empty`. -/
def Hasher.is_empty (h : Hasher D) : Bool := h.stack.isEmpty

/-- `Hasher::reset`: truncate the stack. -/
def Hasher.reset (_h : Hasher D) : Hasher D := ⟨[]⟩

/-- The loop of `Hasher::finish_tree`: add the pad until a single entry
remains.  On every stack whose layers strictly increase towards the
bottom (every reachable stack) the loop stops within `2 ^ (bottom layer
+ 1)` iterations; on other stacks the Rust loop can spin forever and the
fuel-0 branch returns the stack as is. -/
def finishTreeGo (H : HashFn D) (pad : D) : Nat → Hasher D → Hasher D
  | 0, h => h
  | fuel + 1, h =>
    if h.stack.length = 1 then h
    else finishTreeGo H pad fuel (h.add_block H pad)

/-- `Hasher::finish_tree`: pad until a single root remains, return its
digest, and reset.  The `[]` fallback for the root digest is unreachable:
the loop never empties the stack. -/
def Hasher.finish_tree (H : HashFn D) (pad : D) (h : Hasher D) : D × Hasher D :=
  let h' := finishTreeGo H pad (2 ^ ((h.stack.getLast?.elim 0 Entry.layer) + 1) + 1) h
  (match h'.stack with
   | e :: _ => e.digest
   | [] => pad,
   Hasher.new)

/-- The padding loop of `Hasher::finish_layer`: add the pad while the
stack is not a single entry of layer at least `layer`.  On every
reachable stack that passes the entry check the loop stops within
`2 ^ layer` iterations. -/
def finishLayerGo (H : HashFn D) (pad : D) (layer : Nat) : Nat → Hasher D → Hasher D
  | 0, h => h
  | fuel + 1, h =>
    if h.current_layer.elim true (fun l => decide (l < layer)) then
      finishLayerGo H pad layer fuel (h.add_block H pad)
    else h

/-- `Hasher::finish_layer`: pad until the root is at the given layer; if
the first (bottom) entry's layer already exceeds the target, or equals it
while more entries remain, return `none`.  The hasher is reset in either
case.  The non-singleton fallback after the loop is unreachable on
reachable stacks. -/
def Hasher.finish_layer (H : HashFn D) (pad : D) (layer : Nat) (h : Hasher D) :
    Option D × Hasher D :=
  if h.stack.getLast?.elim false
      (fun e => decide (layer < e.layer) || (decide (e.layer = layer) && decide (1 < h.stack.length))) then
    (none, Hasher.new)
  else
    let h' := finishLayerGo H pad layer (2 ^ layer + 1) h
    (match h'.stack with
     | [e] => some e.digest
     | _ => none,
     Hasher.new)

/-- `merkle::zero_root`: the root of a layer-`layer` tree all of whose
blocks are zero digests. -/
def zero_root (H : HashFn D) : Nat → D
  | 0 => H.zero
  | n + 1 => H.combine (zero_root H n) (zero_root H n)

/-- `merkle::root_hash`: feed the digests into a fresh accumulator and
finish the tree padding with `zero_root layer`. -/
def root_hash (H : HashFn D) (layer : Nat) (digests : List D) : D :=
  let h := digests.foldl (fun acc d => acc.add_block H d) Hasher.new
  (h.finish_tree H (zero_root H layer)).fst

/-! ### The torrent model (`src/metainfo.rs`) -/

/-- `metainfo::PieceLength`: a piece length measured as the number of
merkle layers between a 16KiB block and a full piece (`u8` in Rust). -/
structure PieceLength where
  layers : Nat
deriving DecidableEq, Repr

/-- `PieceLength::bytes`: `1 << (layers + 14)`. -/
def PieceLength.bytes (pl : PieceLength) : Nat := 2 ^ (pl.layers + 14)

/-- `metainfo::log2` without its initial `n == 0` test: shift out trailing
zero bits, counting them; succeed if what remains is exactly the bit 1.
Fuel: each step halves `n`, so `n` itself is ample fuel; the fuel-0
branch is only reachable for `n = 0`, on which the Rust loop (never
called with 0) would spin forever. -/
def log2Go : Nat → Nat → Nat → Option Nat
  | 0, _, _ => none
  | fuel + 1, n, count =>
    if n % 2 ≠ 1 then log2Go fuel (n / 2) (count + 1)
    else if n / 2 = 0 then some count
    else none

/-- `metainfo::log2`: the base-2 logarithm of `n` when `n` is an exact
power of two, otherwise `none`. -/
def log2 (n : Nat) : Option Nat :=
  if n = 0 then none
  else log2Go (n + 1) n 0

/-- `PieceLength::from_bytes`: accept `n` only when it is a power of two
with exponent at least 14; the stored `layers` is the exponent minus 14. -/
def PieceLength.from_bytes (n : Nat) : Option PieceLength :=
  match log2 n with
  | none => none
  | some k => if 14 ≤ k then some ⟨k - 14⟩ else none

/-- `metainfo::File`: length in bytes and the file's pieces root. -/
structure File (D : Type) where
  length : Nat
  pieces_root : D
deriving DecidableEq, Repr

/-- `File::default()`: zero length, all-zero pieces root. -/
def File.default (H : HashFn D) : File D := ⟨0, H.zero⟩

/-! ### The piece hasher and the two checksum engines
(`src/checksum/torrent2.rs`) -/

/-- `torrent2::BLOCK_SIZE`: 16 KiB. -/
def BLOCK_SIZE : Nat := 16384

/-- `torrent2::PieceV2Hasher`.  The running SHA-256 block context
(`block_hasher`) is modelled by the bytes it has absorbed since the last
block boundary; `block_pos` always equals that byte count in the Rust
code (both are advanced and cleared together), so it is represented by
`block_buf.length`. -/
structure PieceV2Hasher (D : Type) where
  piece_length : PieceLength
  block_buf : List Nat
  merkle : Hasher D
deriving DecidableEq, Repr

/-- `PieceV2Hasher::new`. -/
def PieceV2Hasher.new (pl : PieceLength) : PieceV2Hasher D := ⟨pl, [], Hasher.new⟩

/-- `PieceV2Hasher::finish_block`: if any bytes are buffered, hash them
as one block and feed the digest to the merkle accumulator. -/
def PieceV2Hasher.finish_block (H : HashFn D) (st : PieceV2Hasher D) : PieceV2Hasher D :=
  if st.block_buf.length = 0 then st
  else { st with
         block_buf := [],
         merkle := st.merkle.add_block H (H.hashBytes st.block_buf) }

/-- `PieceV2Hasher::update_block`: absorb at most one block's worth of
`data` (up to the next block boundary) and return how many bytes were
taken; finish the block when the boundary is reached. -/
def PieceV2Hasher.update_block (H : HashFn D) (st : PieceV2Hasher D) (data : List Nat) :
    PieceV2Hasher D × Nat :=
  let needed := BLOCK_SIZE - st.block_buf.length
  let n := min needed data.length
  let st' := { st with block_buf := st.block_buf ++ data.take n }
  if st'.block_buf.length = BLOCK_SIZE then (st'.finish_block H, n) else (st', n)

/-- The loop of `PieceV2Hasher::update`: call `update_block` until the
data is exhausted.  Each iteration consumes at least one byte whenever
the block buffer is below `BLOCK_SIZE` (always, in reachable states), so
`data.length` is ample fuel; the zero-progress guard is only reachable
on a full buffer, where the Rust loop would spin forever. -/
def updateGo (H : HashFn D) : Nat → PieceV2Hasher D → List Nat → PieceV2Hasher D
  | 0, st, _ => st
  | fuel + 1, st, data =>
    if data.isEmpty then st
    else
      let r := st.update_block H data
      if r.2 = 0 then r.1
      else updateGo H fuel r.1 (data.drop r.2)

/-- `PieceV2Hasher::update` (also its `Write::write` impl, through which
`io::copy` feeds it). -/
def PieceV2Hasher.update (H : HashFn D) (st : PieceV2Hasher D) (data : List Nat) :
    PieceV2Hasher D :=
  updateGo H data.length st data

/-- `PieceV2Hasher::finish`: finish the trailing block, then close the
piece tree at exactly `piece_length.layers` padding with zero digests.
The Rust code unwraps the accumulator's `Option`; `none` here models
that panic.  On success the hasher is reset. -/
def PieceV2Hasher.finish (H : HashFn D) (st : PieceV2Hasher D) :
    Option (D × PieceV2Hasher D) :=
  let st' := st.finish_block H
  ((st'.merkle.finish_layer H H.zero st.piece_length.layers).fst).elim
    none (fun d => some (d, PieceV2Hasher.new st.piece_length))

/-- `PieceV2Hasher::finish_first_piece`: finish the trailing block, then
close the whole tree with zero-digest padding (used when the entire file
is shorter than one piece). -/
def PieceV2Hasher.finish_first_piece (H : HashFn D) (st : PieceV2Hasher D) :
    D × PieceV2Hasher D :=
  let st' := st.finish_block H
  let r := st'.merkle.finish_tree H H.zero
  (r.fst, { st' with merkle := r.snd })

/-- The body of one iteration of the main loop of
`torrent2::checksum_file`: read up to one piece; a zero read ends the
file, otherwise hash the piece (the `unwrap` panic is modelled by
`none`) and stop after a short read; `recurse` continues the loop. -/
def checksumLoopStep (H : HashFn D) (pl : PieceLength) (hasher : PieceV2Hasher D)
    (rest : List Nat) (pieces : List D) (read : Nat)
    (recurse : PieceV2Hasher D → List Nat → List D → Nat → Option (File D × List D)) :
    Option (File D × List D) :=
  let l := pl.bytes
  let piece := rest.take l
  let n := piece.length
  if n = 0 then
    some ({ length := read, pieces_root := root_hash H pl.layers pieces }, pieces)
  else
    let h' := hasher.update H piece
    (h'.finish H).elim none (fun r =>
      if n < l then
        some ({ length := read + n, pieces_root := root_hash H pl.layers (pieces ++ [r.1]) },
              pieces ++ [r.1])
      else recurse r.2 (rest.drop l) (pieces ++ [r.1]) (read + n))

/-- The main loop of `torrent2::checksum_file`.  Each iteration consumes
`piece_length.bytes() ≥ 1` bytes of `rest`, so `rest.length` is ample
fuel and the fuel-0 branch is unreachable. -/
def checksumLoopGo (H : HashFn D) (pl : PieceLength) :
    Nat → PieceV2Hasher D → List Nat → List D → Nat → Option (File D × List D)
  | 0, _, _, _, _ => none
  | fuel + 1, hasher, rest, pieces, read =>
    checksumLoopStep H pl hasher rest pieces read (checksumLoopGo H pl fuel)

/-- `torrent2::checksum_file`: the sequential engine, driving a
`PieceV2Hasher` over the byte stream piece by piece.  `none` models the
`unwrap` panic inside `PieceV2Hasher::finish` (unreachable, as proved
below); I/O errors cannot occur on an in-memory stream. -/
def checksum_file (H : HashFn D) (pl : PieceLength) (data : List Nat) :
    Option (File D × List D) :=
  let l := pl.bytes
  let piece := data.take l
  let n := piece.length
  let hasher := (PieceV2Hasher.new pl).update H piece
  if n = 0 then some (File.default H, [])
  else if n = l then
    (hasher.finish H).elim none
      (fun r => checksumLoopGo H pl (data.length + 1) r.2 (data.drop l) [r.1] n)
  else
    some ({ length := n, pieces_root := (hasher.finish_first_piece H).fst }, [])

/-- The `collect::<Result<Vec<_>, _>>()` step of the parallel engine:
the first failure aborts the whole computation. -/
def collect {α : Type} : List (Option α) → Option (List α)
  | [] => some []
  | none :: _ => none
  | some a :: rest => (collect rest).elim none (fun as => some (a :: as))

/-- `torrent2::checksum_file_multithreaded`: the parallel engine over a
seekable source of declared length `file_length`.  Worker `idx` reads
the byte range `[idx * piece_bytes, idx * piece_bytes + piece_bytes)`
(`PiecesSeeker::piece`, clipped at end of data), checks it got exactly
the expected number of bytes (`none` models the `UnexpectedEof` error),
and hashes it with a fresh `PieceV2Hasher`; the results are collected in
piece order.  Files with fewer than two pieces delegate to the
sequential engine over the first piece range. -/
def checksum_file_multithreaded (H : HashFn D) (pl : PieceLength)
    (file_length : Nat) (data : List Nat) : Option (File D × List D) :=
  let l := pl.bytes
  let num_pieces := file_length / l + (if file_length % l > 0 then 1 else 0)
  if num_pieces ≤ 1 then checksum_file H pl (data.take l)
  else
    let results := (List.range num_pieces).map (fun idx =>
      let piece := (data.drop (idx * l)).take l
      let expected := if idx ≠ num_pieces - 1 ∨ file_length % l = 0 then l else file_length % l
      if piece.length ≠ expected then none
      else (((PieceV2Hasher.new pl).update H piece).finish H).elim none (fun r => some r.1))
    (collect results).elim none (fun pieces_layer =>
      some ({ length := file_length, pieces_root := root_hash H pl.layers pieces_layer },
            pieces_layer))

/-! ### Canonical encoding of `File` (`impl ToBencode for File`,
`src/metainfo.rs`).  The bendy encoder emits nested dictionaries of
key/value pairs; we model the emitted value as a tree.  Digest values
are emitted as their 32 raw bytes (`AsString(digest.as_ref())`), which
with an abstract digest type is the digest itself. -/

/-- A bencode value as produced by the encoder: integer, byte string,
digest byte string, or dictionary (keys in emission order). -/
inductive BVal (D : Type) where
  | int (n : Nat)
  | bytes (b : String)
  | digest (d : D)
  | dict (entries : List (String × BVal D))

/-- `File::encode`: a dictionary with the single key `""`, whose value
holds `"length"` and, only when the length is nonzero, `"pieces root"`. -/
def File.encode (f : File D) : BVal D :=
  .dict [("", .dict (("length", .int f.length) ::
    (if f.length ≠ 0 then [("pieces root", .digest f.pieces_root)] else [])))]

/-- The keys of the inner dictionary (under `""`) of an encoded file. -/
def innerFileKeys (v : BVal D) : List String :=
  match v with
  | .dict (("", .dict kvs) :: _) => kvs.map Prod.fst
  | _ => []

/-! ### The file tree and `Torrent::add_file` (`src/metainfo.rs`).
`HashMap` is modelled as an association list; only lookup, in-place
replacement and insertion are used, so the model is faithful up to
iteration order (which `add_file` never observes). -/

/-- `metainfo::PathElement`: a directory (its entries) or a file. -/
inductive PathElement (D : Type) where
  | dir (entries : List (String × PathElement D))
  | file (f : File D)

/-- Lookup in a directory's entry map. -/
def lookupEntry (d : List (String × PathElement D)) (k : String) :
    Option (PathElement D) :=
  (d.find? (fun p => p.1 = k)).map Prod.snd

/-- Insert-or-replace in a directory's entry map (the `Entry` API's
`insert` / `or_insert_with`): replace the binding of `k` if present,
otherwise add it.  A `HashMap` holds each key at most once, so "the"
binding is the first one. -/
def setEntry : List (String × PathElement D) → String → PathElement D →
    List (String × PathElement D)
  | [], k, v => [(k, v)]
  | p :: rest, k, v => if p.1 = k then (k, v) :: rest else p :: setEntry rest k v

/-- Case analysis on a `PathElement` (directory vs file). -/
def elimPE {β : Type} (pe : PathElement D)
    (ondir : List (String × PathElement D) → β) (onfile : File D → β) : β :=
  match pe with
  | .dir es => ondir es
  | .file f => onfile f

/-- The walk inside `Torrent::add_file`, carried out on the entry at key
`name` of directory `d` with the remaining path components `rest`:
- no components left: insert the file if the entry is vacant, else fail;
- entry holds a file: fail (a path component is already a file);
- entry holds a directory: recurse into it (updating it in place even
  when the recursion fails, as the Rust `Entry` chain does);
- entry vacant: `or_insert_with(Directory::default)` materialises an
  empty directory, then the walk continues inside it. -/
def addAt (d : List (String × PathElement D)) (name : String) (rest : List String)
    (f : File D) : Bool × List (String × PathElement D) :=
  match rest with
  | [] =>
    (lookupEntry d name).elim (true, setEntry d name (.file f)) (fun _ => (false, d))
  | c :: rest' =>
    (lookupEntry d name).elim
      (let r := addAt ([] : List (String × PathElement D)) c rest' f
       (r.1, setEntry d name (.dir r.2)))
      (fun pe => elimPE pe
        (fun sub =>
          let r := addAt sub c rest' f
          (r.1, setEntry d name (.dir r.2)))
        (fun _ => (false, d)))

/-- `metainfo::Info`: the torrent's name, piece length and file tree. -/
structure Info (D : Type) where
  name : String
  piece_length : PieceLength
  file_tree : List (String × PathElement D)

/-- `metainfo::Torrent`: announce URL, info dictionary and the
piece-layers registry (digest-keyed map, modelled as an association
list). -/
structure Torrent (D : Type) where
  announce : String
  info : Info D
  piece_layers : List (D × List D)

/-- `HashMap::insert` on the piece-layers map: replace the value under
an existing key, otherwise add the binding. -/
def insertLayer [DecidableEq D] : List (D × List D) → D → List D → List (D × List D)
  | [], k, v => [(k, v)]
  | p :: rest, k, v => if p.1 = k then (k, v) :: rest else p :: insertLayer rest k v

/-- `Torrent::add_file`: walk/extend the file tree along the path, and
on success register a non-empty piece layer under the file's pieces
root.  Returns the success flag and the updated torrent (the Rust
method mutates in place).  The Rust method receives the path as a
string and splits it on `/`; here `path` is the resulting component
list (`path.split('/')`, never empty for a Rust string — the `[]` arm
models the dead `None` branch of `components.next()`). -/
def Torrent.add_file [DecidableEq D] (t : Torrent D) (path : List String) (f : File D)
    (pieces_layer : List D) : Bool × Torrent D :=
  match path with
  | [] => (false, t)
  | first :: rest =>
    let r := addAt t.info.file_tree first rest f
    let t' := { t with info := { t.info with file_tree := r.2 } }
    if r.1 then
      (true,
       if pieces_layer.isEmpty then t'
       else { t' with piece_layers := insertLayer t'.piece_layers f.pieces_root pieces_layer })
    else (false, t')

/-! ### Verification helpers (specification-side definitions) -/

/-- The number of leaves accounted for by a stack: each layer-`l` entry
is a complete subtree over `2 ^ l` leaves. -/
def stackValue (s : List (Entry D)) : Nat :=
  (s.map (fun e => 2 ^ e.layer)).sum

/-- The stack discipline: layers strictly increase from the top (most
recently pushed, the list head) towards the bottom. -/
def stackSorted : List (Entry D) → Bool
  | [] => true
  | [_] => true
  | e :: f :: rest => decide (e.layer < f.layer) && stackSorted (f :: rest)

/-- The layer of the bottom (first-pushed) entry, 0 for an empty stack. -/
def bottomLayer (s : List (Entry D)) : Nat :=
  s.getLast?.elim 0 Entry.layer

/-- Total number of bytes a `PieceV2Hasher` has absorbed since its last
reset: completed blocks plus the buffered tail. -/
def pending (st : PieceV2Hasher D) : Nat :=
  stackValue st.merkle.stack * BLOCK_SIZE + st.block_buf.length

/-- The digest of one piece: what `PieceV2Hasher::finish` returns after
a fresh hasher absorbs the piece's bytes (total, for pieces of at most
`piece_length.bytes()` bytes, where `finish` cannot fail). -/
def f_piece (H : HashFn D) (pl : PieceLength) (c : List Nat) : D :=
  (((PieceV2Hasher.new pl).update H c).finish H).elim H.zero Prod.fst

/-- Split a byte sequence into consecutive chunks of `l` bytes (the last
chunk may be shorter); fueled by the length, ample for `l ≥ 1`. -/
def chunksOfGo (l : Nat) : Nat → List Nat → List (List Nat)
  | 0, _ => []
  | fuel + 1, data =>
    if data.isEmpty then []
    else data.take l :: chunksOfGo l fuel (data.drop l)

/-- The consecutive `l`-byte chunks of a byte sequence. -/
def chunksOf (l : Nat) (data : List Nat) : List (List Nat) :=
  chunksOfGo l data.length data

/-- A concrete hash instantiation used for evaluating the model on
explicit inputs: digests are naturals, a byte string hashes to its
length, combining is `a + b + 1`, the zero digest is 0. -/
def natHash : HashFn Nat := ⟨List.length, fun a b => a + b + 1, 0⟩

/-! ## Lemmas: the merkle stack discipline -/

theorem stackSorted_cons {e : Entry D} {s : List (Entry D)} :
    stackSorted (e :: s) = true ↔
      ((∀ f, s.head? = some f → e.layer < f.layer) ∧ stackSorted s = true) := by
  cases s with
  | nil => simp [stackSorted]
  | cons f rest => simp [stackSorted]

theorem stackValue_nil : stackValue ([] : List (Entry D)) = 0 := rfl

theorem stackValue_cons (e : Entry D) (s : List (Entry D)) :
    stackValue (e :: s) = 2 ^ e.layer + stackValue s := by
  simp [stackValue]

theorem settleGo_value (H : HashFn D) :
    ∀ (fuel : Nat) (s : List (Entry D)), stackValue (settleGo H fuel s) = stackValue s := by
  intro fuel
  induction fuel with
  | zero => intro s; rfl
  | succ n ih =>
    intro s
    match s with
    | [] => rfl
    | [e] => rfl
    | b :: a :: rest =>
      simp only [settleGo]
      by_cases h : b.layer = a.layer
      · rw [if_pos h, ih]
        simp [stackValue_cons, h, pow_succ]
        ring
      · rw [if_neg h]

theorem settleGo_sorted (H : HashFn D) :
    ∀ (fuel : Nat) (e : Entry D) (s : List (Entry D)), stackSorted s = true →
      (∀ f, s.head? = some f → e.layer ≤ f.layer) → s.length ≤ fuel →
      stackSorted (settleGo H fuel (e :: s)) = true := by
  intro fuel
  induction fuel with
  | zero =>
    intro e s hs hh hl
    have hnil : s = [] := List.eq_nil_of_length_eq_zero (Nat.le_zero.mp hl)
    subst hnil; rfl
  | succ n ih =>
    intro e s hs hh hl
    match s with
    | [] => rfl
    | f :: rest =>
      simp only [settleGo]
      by_cases hbf : e.layer = f.layer
      · rw [if_pos hbf]
        have hrest := (stackSorted_cons.mp hs).2
        have hhead := (stackSorted_cons.mp hs).1
        exact ih _ rest hrest
          (fun g hg => Nat.succ_le_of_lt (hhead g hg))
          (by simp only [List.length_cons] at hl; omega)
      · rw [if_neg hbf]
        have hle : e.layer ≤ f.layer := hh f rfl
        have hlt : e.layer < f.layer := lt_of_le_of_ne hle hbf
        exact stackSorted_cons.mpr ⟨fun g hg => by simp at hg; subst hg; exact hlt, hs⟩

theorem add_block_sorted (H : HashFn D) (d : D) (h : Hasher D)
    (hs : stackSorted h.stack = true) :
    stackSorted (h.add_block H d).stack = true := by
  exact settleGo_sorted H (h.stack.length + 1) (Entry.new d) h.stack hs
    (fun _ _ => Nat.zero_le _) (Nat.le_succ _)

theorem add_block_value (H : HashFn D) (d : D) (h : Hasher D) :
    stackValue (h.add_block H d).stack = stackValue h.stack + 1 := by
  show stackValue (settleGo H _ _) = _
  rw [settleGo_value, stackValue_cons]
  simp [Entry.new]
  ring

theorem stackSorted_pairwise :
    ∀ {s : List (Entry D)}, stackSorted s = true →
      s.Pairwise (fun a b => a.layer < b.layer) := by
  intro s
  induction s with
  | nil => intro _; exact List.Pairwise.nil
  | cons e rest ih =>
    intro hs
    have h1 := (stackSorted_cons.mp hs).1
    have h2 := (stackSorted_cons.mp hs).2
    refine List.pairwise_cons.mpr ⟨?_, ih h2⟩
    intro b hb
    cases rest with
    | nil => simp at hb
    | cons f rest' =>
      have hef : e.layer < f.layer := h1 f rfl
      rcases List.mem_cons.mp hb with hbf | hbr
      · subst hbf; exact hef
      · have := List.pairwise_cons.mp (ih h2)
        exact lt_trans hef (this.1 b hbr)

theorem le_stackValue_of_ne_nil :
    ∀ (s : List (Entry D)), s ≠ [] → 2 ^ bottomLayer s ≤ stackValue s := by
  intro s
  induction s with
  | nil => intro h; exact absurd rfl h
  | cons e rest ih =>
    intro _
    cases rest with
    | nil =>
      simp [bottomLayer, stackValue]
    | cons f rest' =>
      have hb : bottomLayer (e :: f :: rest') = bottomLayer (f :: rest') := by
        simp [bottomLayer, List.getLast?_cons_cons]
      rw [hb, stackValue_cons]
      exact le_trans (ih (by simp)) (Nat.le_add_left _ _)

theorem stackValue_add_head_le :
    ∀ (s : List (Entry D)) (e : Entry D), stackSorted (e :: s) = true →
      stackValue (e :: s) + 2 ^ e.layer ≤ 2 ^ (bottomLayer (e :: s) + 1) := by
  intro s
  induction s with
  | nil =>
    intro e _
    simp [bottomLayer, stackValue, pow_succ]
    omega
  | cons f rest ih =>
    intro e hs
    have h1 : e.layer < f.layer := (stackSorted_cons.mp hs).1 f rfl
    have h2 := (stackSorted_cons.mp hs).2
    have hb : bottomLayer (e :: f :: rest) = bottomLayer (f :: rest) := by
      simp [bottomLayer, List.getLast?_cons_cons]
    have hih := ih f h2
    have hpow : 2 ^ (e.layer + 1) ≤ 2 ^ f.layer :=
      Nat.pow_le_pow_right (by norm_num) h1
    have hsplit : (2 : Nat) ^ (e.layer + 1) = 2 ^ e.layer + 2 ^ e.layer := by
      rw [pow_succ]; omega
    rw [hb, stackValue_cons, stackValue_cons]
    rw [stackValue_cons] at hih
    omega

theorem singleton_of_stackValue_pow {s : List (Entry D)} {L : Nat}
    (hs : stackSorted s = true) (hv : stackValue s = 2 ^ L) :
    ∃ d, s = [⟨L, d⟩] := by
  match s with
  | [] =>
    exfalso
    rw [stackValue_nil] at hv
    have : 0 < 2 ^ L := pow_pos (by norm_num) L
    omega
  | [e] =>
    have : 2 ^ e.layer = 2 ^ L := by
      rw [stackValue_cons, stackValue_nil] at hv; omega
    have hlayer : e.layer = L := Nat.pow_right_injective (by norm_num) this
    exact ⟨e.digest, by cases e with | mk l d => simp at hlayer ⊢; exact hlayer⟩
  | e :: f :: rest =>
    exfalso
    have hb : bottomLayer (e :: f :: rest) = bottomLayer (f :: rest) := by
      simp [bottomLayer, List.getLast?_cons_cons]
    have hlow : 2 ^ bottomLayer (f :: rest) ≤ stackValue (f :: rest) :=
      le_stackValue_of_ne_nil _ (by simp)
    have hup := stackValue_add_head_le (f :: rest) e hs
    rw [hb] at hup
    -- value = 2^e.layer + value (f::rest) = 2^L, yet value (f::rest) ≥ 2^B and
    -- value + 2^e.layer ≤ 2^(B+1); combining, 2^L < 2^L.
    have hvc : 2 ^ e.layer + stackValue (f :: rest) = 2 ^ L := by
      rw [stackValue_cons] at hv; omega
    have hBle : 2 ^ bottomLayer (f :: rest) < 2 ^ L := by
      have hpos : 0 < 2 ^ e.layer := pow_pos (by norm_num) _
      omega
    have hBlt : bottomLayer (f :: rest) < L :=
      (Nat.pow_lt_pow_iff_right (by norm_num)).mp hBle
    have : 2 ^ (bottomLayer (f :: rest) + 1) ≤ 2 ^ L :=
      Nat.pow_le_pow_right (by norm_num) hBlt
    rw [stackValue_cons] at hup
    have hpos : 0 < 2 ^ e.layer := pow_pos (by norm_num) _
    omega

theorem finishLayerGo_pad (H : HashFn D) (pad : D) (L : Nat) :
    ∀ (k fuel : Nat) (s : List (Entry D)), stackSorted s = true →
      stackValue s + k = 2 ^ L → k < fuel →
      ∃ e : Entry D, (finishLayerGo H pad L fuel (⟨s⟩ : Hasher D)).stack = [e] ∧
        e.layer = L := by
  intro k
  induction k with
  | zero =>
    intro fuel s hs hv hf
    have hv' : stackValue s = 2 ^ L := by omega
    obtain ⟨d, hd⟩ := singleton_of_stackValue_pow hs hv'
    subst hd
    match fuel with
    | m + 1 =>
      refine ⟨⟨L, d⟩, ?_, rfl⟩
      simp [finishLayerGo, Hasher.current_layer, lt_irrefl]
  | succ k ih =>
    intro fuel s hs hv hf
    match fuel with
    | m + 1 =>
      have hcont : (Hasher.current_layer (⟨s⟩ : Hasher D)).elim true
          (fun l => decide (l < L)) = true := by
        match s with
        | [] => rfl
        | [e] =>
          have : 2 ^ e.layer < 2 ^ L := by
            rw [stackValue_cons, stackValue_nil] at hv; omega
          have : e.layer < L := (Nat.pow_lt_pow_iff_right (by norm_num)).mp this
          simp [Hasher.current_layer, this]
        | e :: f :: rest => rfl
      rw [finishLayerGo, if_pos hcont]
      exact ih m _ (add_block_sorted H pad ⟨s⟩ hs)
        (by show stackValue (Hasher.add_block H pad ⟨s⟩).stack + k = 2 ^ L
            rw [add_block_value]
            show stackValue s + 1 + k = 2 ^ L
            omega)
        (by omega)

/-- On a stack respecting the discipline, the strict version of
`le_stackValue_of_ne_nil` for stacks with at least two entries. -/
theorem lt_stackValue_of_two {e : Entry D} {s : List (Entry D)} (hne : s ≠ []) :
    2 ^ bottomLayer (e :: s) < stackValue (e :: s) := by
  match s with
  | f :: rest =>
    have hb : bottomLayer (e :: f :: rest) = bottomLayer (f :: rest) := by
      simp [bottomLayer, List.getLast?_cons_cons]
    have hlow : 2 ^ bottomLayer (f :: rest) ≤ stackValue (f :: rest) :=
      le_stackValue_of_ne_nil _ (by simp)
    have hpos : 0 < 2 ^ e.layer := pow_pos (by norm_num) _
    rw [hb, stackValue_cons]
    omega

/-- When the stack discipline holds and the stack accounts for at most
`2 ^ L` leaves, the entry check of `finish_layer` passes and the padding
loop ends in a single entry at exactly the target layer, whose digest is
returned. -/
theorem finish_layer_some (H : HashFn D) (pad : D) (L : Nat) (h : Hasher D)
    (hs : stackSorted h.stack = true) (hv : stackValue h.stack ≤ 2 ^ L) :
    ∃ e : Entry D, e.layer = L ∧
      (finishLayerGo H pad L (2 ^ L + 1) h).stack = [e] ∧
      h.finish_layer H pad L = (some e.digest, Hasher.new) := by
  have hguard : h.stack.getLast?.elim false
      (fun e => decide (L < e.layer) ||
        (decide (e.layer = L) && decide (1 < h.stack.length))) = false := by
    cases hl : h.stack.getLast? with
    | none => rfl
    | some last =>
      have hne : h.stack ≠ [] := by
        intro hnil; rw [hnil] at hl; exact Option.noConfusion hl
      have hbot : bottomLayer h.stack = last.layer := by
        simp [bottomLayer, hl]
      have hlow : 2 ^ last.layer ≤ stackValue h.stack := by
        rw [← hbot]; exact le_stackValue_of_ne_nil _ hne
      have hle : last.layer ≤ L :=
        (Nat.pow_le_pow_iff_right (by norm_num)).mp (le_trans hlow hv)
      have hnot2 : last.layer = L → ¬ 1 < h.stack.length := by
        intro heq hlen
        match hm : h.stack, hlen with
        | e :: f :: rest, _ =>
          have hstrict : 2 ^ bottomLayer (e :: f :: rest) < stackValue (e :: f :: rest) :=
            lt_stackValue_of_two (by simp)
          rw [hm] at hbot hv
          rw [hbot, heq] at hstrict
          omega
      simp only [Option.elim]
      have h1 : decide (L < last.layer) = false := by
        simp [Nat.not_lt.mpr hle]
      rw [h1, Bool.false_or, Bool.and_eq_false_iff]
      by_cases hEq : last.layer = L
      · right; simpa using hnot2 hEq
      · left; simpa using hEq
  obtain ⟨e, he, hlayer⟩ := finishLayerGo_pad H pad L (2 ^ L - stackValue h.stack)
    (2 ^ L + 1) h.stack hs (by omega) (by omega)
  have hh : (⟨h.stack⟩ : Hasher D) = h := rfl
  rw [hh] at he
  refine ⟨e, hlayer, he, ?_⟩
  unfold Hasher.finish_layer
  rw [if_neg (by rw [hguard]; exact Bool.false_ne_true)]
  simp only [he]

/-- When the entry check fires (the bottom entry is above the target
layer, or at the target layer with company), `finish_layer` fails and
resets. -/
theorem finish_layer_none (H : HashFn D) (pad : D) (L : Nat) (h : Hasher D)
    (hne : h.stack ≠ [])
    (hcond : L < bottomLayer h.stack ∨
      (bottomLayer h.stack = L ∧ 1 < h.stack.length)) :
    h.finish_layer H pad L = (none, Hasher.new) := by
  obtain ⟨last, hl⟩ := Option.isSome_iff_exists.mp (List.getLast?_isSome.mpr hne)
  have hbot : bottomLayer h.stack = last.layer := by
    simp [bottomLayer, hl]
  have hguard : h.stack.getLast?.elim false
      (fun e => decide (L < e.layer) ||
        (decide (e.layer = L) && decide (1 < h.stack.length))) = true := by
    rw [hl]
    simp only [Option.elim]
    rw [hbot] at hcond
    rcases hcond with hlt | ⟨heq, hlen⟩
    · simp [hlt]
    · simp [heq, hlen]
  unfold Hasher.finish_layer
  rw [if_pos hguard]

/-! ## Lemmas: the piece hasher -/

theorem update_block_spec (H : HashFn D) (st : PieceV2Hasher D) (data : List Nat)
    (hs : stackSorted st.merkle.stack = true)
    (hb : st.block_buf.length < BLOCK_SIZE) (hne : data ≠ []) :
    1 ≤ (st.update_block H data).2 ∧ (st.update_block H data).2 ≤ data.length ∧
    stackSorted (st.update_block H data).1.merkle.stack = true ∧
    (st.update_block H data).1.block_buf.length < BLOCK_SIZE ∧
    pending (st.update_block H data).1 = pending st + (st.update_block H data).2 ∧
    (st.update_block H data).1.piece_length = st.piece_length := by
  have hbb : (0 : Nat) < BLOCK_SIZE := by norm_num [BLOCK_SIZE]
  have hdl : 0 < data.length := List.length_pos.mpr hne
  have hn1 : 1 ≤ min (BLOCK_SIZE - st.block_buf.length) data.length := by omega
  have hnd : min (BLOCK_SIZE - st.block_buf.length) data.length ≤ data.length :=
    Nat.min_le_right _ _
  have htake : (data.take (min (BLOCK_SIZE - st.block_buf.length) data.length)).length
      = min (BLOCK_SIZE - st.block_buf.length) data.length := by
    rw [List.length_take]; omega
  simp only [PieceV2Hasher.update_block]
  split
  · -- the block boundary was reached: the buffered block is hashed and pushed
    rename_i hfull
    simp only [List.length_append, htake] at hfull
    simp only [PieceV2Hasher.finish_block]
    rw [if_neg (by simp only [List.length_append, htake]; omega)]
    refine ⟨hn1, hnd, add_block_sorted H _ _ hs, by simpa using hbb, ?_, rfl⟩
    simp only [pending, add_block_value, List.length_nil]
    have hexp : (stackValue st.merkle.stack + 1) * BLOCK_SIZE
        = stackValue st.merkle.stack * BLOCK_SIZE + BLOCK_SIZE := by ring
    rw [hexp]
    omega
  · -- the block is still incomplete: bytes are only buffered
    rename_i hfull
    simp only [List.length_append, htake] at hfull
    refine ⟨hn1, hnd, hs, ?_, ?_, rfl⟩
    · simp only [List.length_append, htake]
      omega
    · simp only [pending, List.length_append, htake]
      omega

theorem updateGo_succ_nil (H : HashFn D) (m : Nat) (st : PieceV2Hasher D) :
    updateGo H (m + 1) st [] = st := by
  simp [updateGo]

theorem updateGo_succ_step (H : HashFn D) (m : Nat) (st : PieceV2Hasher D)
    (data : List Nat) (hde : data.isEmpty = false)
    (hn : (st.update_block H data).2 ≠ 0) :
    updateGo H (m + 1) st data
      = updateGo H m (st.update_block H data).1 (data.drop (st.update_block H data).2) := by
  rw [updateGo]
  simp [hde, hn]

theorem updateGo_inv (H : HashFn D) :
    ∀ (fuel : Nat) (data : List Nat) (st : PieceV2Hasher D),
      data.length ≤ fuel → stackSorted st.merkle.stack = true →
      st.block_buf.length < BLOCK_SIZE →
      stackSorted (updateGo H fuel st data).merkle.stack = true ∧
      (updateGo H fuel st data).block_buf.length < BLOCK_SIZE ∧
      pending (updateGo H fuel st data) = pending st + data.length ∧
      (updateGo H fuel st data).piece_length = st.piece_length := by
  intro fuel
  induction fuel with
  | zero =>
    intro data st hf hs hb
    have hnil : data = [] := List.eq_nil_of_length_eq_zero (Nat.le_zero.mp hf)
    subst hnil
    exact ⟨hs, hb, by simp [updateGo], rfl⟩
  | succ m ih =>
    intro data st hf hs hb
    by_cases hde : data.isEmpty
    · have hnil : data = [] := List.isEmpty_iff.mp hde
      subst hnil
      rw [updateGo_succ_nil]
      exact ⟨hs, hb, by simp, rfl⟩
    · have hde' : data.isEmpty = false := by simpa using hde
      have hne : data ≠ [] := fun hnil => hde (by rw [hnil]; rfl)
      obtain ⟨h1, h2, h3, h4, h5, h6⟩ := update_block_spec H st data hs hb hne
      rw [updateGo_succ_step H m st data hde' (by omega)]
      obtain ⟨g1, g2, g3, g4⟩ := ih (data.drop (st.update_block H data).2)
        (st.update_block H data).1 (by rw [List.length_drop]; omega) h3 h4
      refine ⟨g1, g2, ?_, by rw [g4, h6]⟩
      rw [g3, h5, List.length_drop]
      omega

theorem update_inv (H : HashFn D) (st : PieceV2Hasher D) (data : List Nat)
    (hs : stackSorted st.merkle.stack = true)
    (hb : st.block_buf.length < BLOCK_SIZE) :
    stackSorted (st.update H data).merkle.stack = true ∧
    (st.update H data).block_buf.length < BLOCK_SIZE ∧
    pending (st.update H data) = pending st + data.length ∧
    (st.update H data).piece_length = st.piece_length :=
  updateGo_inv H data.length data st (le_refl _) hs hb

/-- `PieceLength::bytes` is exactly `2 ^ layers` blocks. -/
theorem bytes_eq_blocks (pl : PieceLength) :
    pl.bytes = 2 ^ pl.layers * BLOCK_SIZE := by
  rw [PieceLength.bytes, BLOCK_SIZE, pow_add]
  norm_num

/-- When a piece hasher respecting the invariants has absorbed at most
one piece's worth of bytes, `finish` succeeds and resets. -/
theorem finish_some (H : HashFn D) (st : PieceV2Hasher D)
    (hs : stackSorted st.merkle.stack = true)
    (hv : pending st ≤ st.piece_length.bytes) :
    ∃ d, st.finish H = some (d, PieceV2Hasher.new st.piece_length) := by
  have hblock : (0 : Nat) < BLOCK_SIZE := by norm_num [BLOCK_SIZE]
  rw [bytes_eq_blocks] at hv
  have hsfin : stackSorted (st.finish_block H).merkle.stack = true := by
    rw [PieceV2Hasher.finish_block]
    split
    · exact hs
    · exact add_block_sorted H _ _ hs
  have hvfin : stackValue (st.finish_block H).merkle.stack
      ≤ 2 ^ st.piece_length.layers := by
    rw [PieceV2Hasher.finish_block]
    split
    · rename_i hz
      have := pending st
      simp only [pending] at hv
      rw [hz, Nat.add_zero] at hv
      exact Nat.le_of_mul_le_mul_right hv hblock
    · rename_i hz
      rw [add_block_value]
      simp only [pending] at hv
      have hlt : stackValue st.merkle.stack * BLOCK_SIZE
          < 2 ^ st.piece_length.layers * BLOCK_SIZE := by omega
      have := Nat.lt_of_mul_lt_mul_right hlt
      omega
  obtain ⟨e, helayer, _, hfl⟩ :=
    finish_layer_some H H.zero st.piece_length.layers (st.finish_block H).merkle
      hsfin hvfin
  refine ⟨e.digest, ?_⟩
  rw [PieceV2Hasher.finish]
  simp only [hfl]
  rfl

/-- Hashing one chunk of at most a piece's worth of bytes from a fresh
hasher: `finish` yields `f_piece` and the reset (fresh) hasher. -/
theorem piece_finish (H : HashFn D) (pl : PieceLength) (c : List Nat)
    (hc : c.length ≤ pl.bytes) :
    ((PieceV2Hasher.new pl).update H c).finish H
      = some (f_piece H pl c, PieceV2Hasher.new pl) := by
  have hb0 : ((PieceV2Hasher.new pl : PieceV2Hasher D)).block_buf.length < BLOCK_SIZE := by
    norm_num [PieceV2Hasher.new, BLOCK_SIZE]
  obtain ⟨g1, g2, g3, g4⟩ := update_inv H (PieceV2Hasher.new pl) c rfl hb0
  have hpend0 : pending (PieceV2Hasher.new pl : PieceV2Hasher D) = 0 := by
    simp [pending, PieceV2Hasher.new, Hasher.new, stackValue]
  obtain ⟨d, hd⟩ := finish_some H _ g1 (by rw [g3, hpend0, g4]; simpa using hc)
  rw [g4, show (PieceV2Hasher.new pl : PieceV2Hasher D).piece_length = pl from rfl] at hd
  have hfp : f_piece H pl c = d := by
    rw [f_piece, hd]
    rfl
  rw [hd, hfp]

theorem chunksOfGo_nil (l : Nat) : ∀ fuel, chunksOfGo l fuel [] = [] := by
  intro fuel
  cases fuel <;> simp [chunksOfGo]

theorem chunksOfGo_congr (l : Nat) (hl : 1 ≤ l) :
    ∀ (f1 f2 : Nat) (data : List Nat), data.length ≤ f1 → data.length ≤ f2 →
      chunksOfGo l f1 data = chunksOfGo l f2 data := by
  intro f1
  induction f1 with
  | zero =>
    intro f2 data h1 _
    have : data = [] := List.eq_nil_of_length_eq_zero (Nat.le_zero.mp h1)
    subst this
    rw [chunksOfGo_nil, chunksOfGo_nil]
  | succ m ih =>
    intro f2 data h1 h2
    by_cases hne : data = []
    · subst hne; rw [chunksOfGo_nil, chunksOfGo_nil]
    · have hpos : 0 < data.length := List.length_pos.mpr hne
      match f2 with
      | 0 => omega
      | k + 1 =>
        have hde : data.isEmpty = false := by
          cases data with
          | nil => exact absurd rfl hne
          | cons a as => rfl
        rw [chunksOfGo, chunksOfGo, if_neg (by simp [hde]), if_neg (by simp [hde])]
        have hdrop : (data.drop l).length ≤ m := by
          rw [List.length_drop]; omega
        have hdrop2 : (data.drop l).length ≤ k := by
          rw [List.length_drop]; omega
        rw [ih k (data.drop l) hdrop hdrop2]

theorem chunksOf_cons (l : Nat) (hl : 1 ≤ l) (data : List Nat) (hne : data ≠ []) :
    chunksOf l data = data.take l :: chunksOf l (data.drop l) := by
  have hpos : 0 < data.length := List.length_pos.mpr hne
  have hde : data.isEmpty = false := by
    cases data with
    | nil => exact absurd rfl hne
    | cons a as => rfl
  rw [chunksOf]
  match hlen : data.length, hpos with
  | m + 1, _ =>
    rw [chunksOfGo, if_neg (by simp [hde])]
    rw [chunksOf]
    rw [chunksOfGo_congr l hl m (data.drop l).length (data.drop l)
      (by rw [List.length_drop]; omega) (le_refl _)]

/-! ## Lemmas: the sequential engine -/

theorem checksumLoopGo_succ (H : HashFn D) (pl : PieceLength) (m : Nat)
    (hasher : PieceV2Hasher D) (rest : List Nat) (pieces : List D) (read : Nat) :
    checksumLoopGo H pl (m + 1) hasher rest pieces read =
      checksumLoopStep H pl hasher rest pieces read (checksumLoopGo H pl m) := rfl

theorem checksumLoopGo_succ_finish (H : HashFn D) (pl : PieceLength) (m : Nat)
    (hasher : PieceV2Hasher D) (rest : List Nat) (pieces : List D) (read : Nat)
    (d : D) (h2 : PieceV2Hasher D)
    (hne : ¬ ((rest.take pl.bytes).length = 0))
    (hfin : (hasher.update H (rest.take pl.bytes)).finish H = some (d, h2)) :
    checksumLoopGo H pl (m + 1) hasher rest pieces read =
      if (rest.take pl.bytes).length < pl.bytes then
        some ({ length := read + (rest.take pl.bytes).length,
                pieces_root := root_hash H pl.layers (pieces ++ [d]) },
              pieces ++ [d])
      else
        checksumLoopGo H pl m h2 (rest.drop pl.bytes) (pieces ++ [d])
          (read + (rest.take pl.bytes).length) := by
  rw [checksumLoopGo_succ]
  simp only [checksumLoopStep]
  rw [if_neg hne, hfin]
  simp only [Option.elim_some]

theorem checksumLoopGo_spec (H : HashFn D) (pl : PieceLength) :
    ∀ (fuel : Nat) (rest : List Nat) (pieces : List D) (read : Nat),
      rest.length < fuel →
      checksumLoopGo H pl fuel (PieceV2Hasher.new pl) rest pieces read =
        some ({ length := read + rest.length,
                pieces_root := root_hash H pl.layers
                  (pieces ++ (chunksOf pl.bytes rest).map (f_piece H pl)) },
              pieces ++ (chunksOf pl.bytes rest).map (f_piece H pl)) := by
  have hl1 : 1 ≤ pl.bytes := Nat.one_le_two_pow
  intro fuel
  induction fuel with
  | zero =>
    intro rest pieces read h
    exact absurd h (Nat.not_lt_zero _)
  | succ m ih =>
    intro rest pieces read hf
    by_cases hrest : rest = []
    · subst hrest
      simp [checksumLoopGo_succ, checksumLoopStep, chunksOf, chunksOfGo_nil]
    · have hpos : 0 < rest.length := List.length_pos.mpr hrest
      have htlen : (rest.take pl.bytes).length = min pl.bytes rest.length :=
        List.length_take _ _
      have hne0 : ¬ ((rest.take pl.bytes).length = 0) := by omega
      have htc : (rest.take pl.bytes).length ≤ pl.bytes := by omega
      rw [checksumLoopGo_succ_finish H pl m (PieceV2Hasher.new pl) rest pieces read
        (f_piece H pl (rest.take pl.bytes)) (PieceV2Hasher.new pl) hne0
        (piece_finish H pl (rest.take pl.bytes) htc)]
      by_cases hshort : rest.length < pl.bytes
      · -- the short final piece: stop after pushing its digest
        have htake_all : rest.take pl.bytes = rest :=
          List.take_of_length_le (Nat.le_of_lt hshort)
        have hdropnil : rest.drop pl.bytes = [] :=
          List.drop_eq_nil_of_le (Nat.le_of_lt hshort)
        rw [chunksOf_cons pl.bytes hl1 rest hrest, hdropnil]
        have hlt : (rest.take pl.bytes).length < pl.bytes := by omega
        rw [if_pos hlt]
        simp [htake_all, chunksOf, chunksOfGo_nil]
      · -- a full piece: push and continue with the remainder
        have hfull : pl.bytes ≤ rest.length := Nat.le_of_not_lt hshort
        have hn : (rest.take pl.bytes).length = pl.bytes := by omega
        have hnlt : ¬ ((rest.take pl.bytes).length < pl.bytes) := by omega
        rw [if_neg hnlt]
        have hdlen : (rest.drop pl.bytes).length < m := by
          rw [List.length_drop]; omega
        rw [ih (rest.drop pl.bytes) (pieces ++ [f_piece H pl (rest.take pl.bytes)])
          (read + (rest.take pl.bytes).length) hdlen]
        have hlist : pieces ++ (chunksOf pl.bytes rest).map (f_piece H pl)
            = (pieces ++ [f_piece H pl (rest.take pl.bytes)])
              ++ (chunksOf pl.bytes (rest.drop pl.bytes)).map (f_piece H pl) := by
          rw [chunksOf_cons pl.bytes hl1 rest hrest, List.map_cons, List.append_cons]
        have harith : read + (rest.take pl.bytes).length + (rest.drop pl.bytes).length
            = read + rest.length := by
          rw [List.length_drop]; omega
        rw [hlist, harith]

/-- The sequential engine on an input of at least one full piece: it
reads the whole stream, hashes it chunk by chunk, and returns the
merkle root over the ordered chunk digests together with that digest
list. -/
theorem checksum_file_spec (H : HashFn D) (pl : PieceLength) (data : List Nat)
    (hge : pl.bytes ≤ data.length) :
    checksum_file H pl data =
      some ({ length := data.length,
              pieces_root := root_hash H pl.layers
                ((chunksOf pl.bytes data).map (f_piece H pl)) },
            (chunksOf pl.bytes data).map (f_piece H pl)) := by
  have hl1 : 1 ≤ pl.bytes := Nat.one_le_two_pow
  have hne : data ≠ [] := by
    intro hnil
    rw [hnil] at hge
    simp at hge
    omega
  have htlen : (data.take pl.bytes).length = min pl.bytes data.length :=
    List.length_take _ _
  have hn : (data.take pl.bytes).length = pl.bytes := by omega
  simp only [checksum_file]
  rw [if_neg (by omega), if_pos hn,
    piece_finish H pl (data.take pl.bytes) (by omega)]
  simp only [Option.elim_some]
  rw [checksumLoopGo_spec H pl (data.length + 1) (data.drop pl.bytes)
    [f_piece H pl (data.take pl.bytes)] (data.take pl.bytes).length
    (by rw [List.length_drop]; omega)]
  have hlist : [f_piece H pl (data.take pl.bytes)]
        ++ (chunksOf pl.bytes (data.drop pl.bytes)).map (f_piece H pl)
      = (chunksOf pl.bytes data).map (f_piece H pl) := by
    rw [chunksOf_cons pl.bytes hl1 data hne, List.map_cons]
    rfl
  have harith : (data.take pl.bytes).length + (data.drop pl.bytes).length
      = data.length := by
    rw [List.length_drop]; omega
  rw [hlist, harith]

/-! ## Lemmas: the parallel engine -/

/-- The byte range a parallel worker is assigned has exactly the length
the worker expects (`expected_length` in the source), for every valid
piece index. -/
theorem chunk_expected_length (l len idx : Nat) (hl : 1 ≤ l)
    (hidx : idx < len / l + (if len % l > 0 then 1 else 0)) :
    min l (len - idx * l)
      = (if idx ≠ (len / l + (if len % l > 0 then 1 else 0)) - 1 ∨ len % l = 0
         then l else len % l) := by
  have hl0 : 0 < l := hl
  have hqr : l * (len / l) + len % l = len := Nat.div_add_mod len l
  have hcomm : (len / l) * l = l * (len / l) := Nat.mul_comm _ _
  have hr : len % l < l := Nat.mod_lt _ hl0
  by_cases hr0 : len % l = 0
  · have hite : (if len % l > 0 then 1 else 0) = 0 := by simp [hr0]
    rw [hite] at hidx ⊢
    rw [if_pos (Or.inr hr0)]
    have hmul : (idx + 1) * l ≤ (len / l) * l :=
      Nat.mul_le_mul_right _ (by omega)
    have hexp : (idx + 1) * l = idx * l + l := by ring
    omega
  · have hite : (if len % l > 0 then 1 else 0) = 1 := by
      simp [Nat.pos_of_ne_zero hr0]
    rw [hite] at hidx ⊢
    by_cases hlast : idx = len / l
    · rw [if_neg (by omega)]
      subst hlast
      omega
    · rw [if_pos (Or.inl (by omega))]
      have hmul : (idx + 1) * l ≤ (len / l) * l :=
        Nat.mul_le_mul_right _ (by omega)
      have hexp : (idx + 1) * l = idx * l + l := by ring
      omega

theorem collect_map_some {α β : Type} (g : β → α) :
    ∀ xs : List β, collect (xs.map (fun x => some (g x))) = some (xs.map g) := by
  intro xs
  induction xs with
  | nil => rfl
  | cons a rest ih =>
    simp only [List.map_cons, collect, ih, Option.elim_some]

/-- The index-addressed byte ranges of the parallel engine, in piece
order, are exactly the chunks the sequential engine reads. -/
theorem range_map_chunks (l : Nat) (hl : 1 ≤ l) :
    ∀ (n : Nat) (data : List Nat), data.length = n →
      (List.range (data.length / l + (if data.length % l > 0 then 1 else 0))).map
          (fun idx => (data.drop (idx * l)).take l)
        = chunksOf l data := by
  intro n
  induction n using Nat.strong_induction_on with
  | _ n ih =>
    intro data hlen
    by_cases hnil : data = []
    · subst hnil
      simp [chunksOf, chunksOfGo]
    · have hpos : 0 < data.length := List.length_pos.mpr hnil
      have hl0 : 0 < l := hl
      have hqr : l * (data.length / l) + data.length % l = data.length :=
        Nat.div_add_mod _ _
      have hr : data.length % l < l := Nat.mod_lt _ hl0
      -- one more piece than the tail after removing the first chunk
      have hnp : data.length / l + (if data.length % l > 0 then 1 else 0)
          = ((data.drop l).length / l + (if (data.drop l).length % l > 0 then 1 else 0))
            + 1 := by
        rw [List.length_drop]
        by_cases hle : data.length ≤ l
        · have h1 : data.length - l = 0 := Nat.sub_eq_zero_of_le hle
          rw [h1]
          simp only [Nat.zero_div, Nat.zero_mod]
          by_cases heq : data.length = l
          · rw [heq]
            simp [Nat.div_self hl0, Nat.mod_self]
          · have hlt : data.length < l := by omega
            rw [Nat.div_eq_of_lt hlt, Nat.mod_eq_of_lt hlt]
            simp [hpos]
        · obtain ⟨k, hk⟩ := Nat.exists_eq_add_of_le (Nat.le_of_not_le hle)
          rw [hk]
          rw [Nat.add_div_left _ hl0, Nat.add_mod_left, Nat.add_sub_cancel_left]
          omega
      rw [hnp, List.range_succ_eq_map, List.map_cons, List.map_map]
      rw [chunksOf_cons l hl data hnil]
      have hhead : (data.drop (0 * l)).take l = data.take l := by
        simp
      rw [hhead]
      have htail : (List.range ((data.drop l).length / l
            + (if (data.drop l).length % l > 0 then 1 else 0))).map
            ((fun idx => (data.drop (idx * l)).take l) ∘ Nat.succ)
          = (List.range ((data.drop l).length / l
            + (if (data.drop l).length % l > 0 then 1 else 0))).map
            (fun idx => ((data.drop l).drop (idx * l)).take l) := by
        refine List.map_congr_left ?_
        intro i _
        simp only [Function.comp_apply]
        rw [List.drop_drop]
        have heq : Nat.succ i * l = l + i * l := by
          rw [Nat.succ_eq_add_one]; ring
        rw [heq]
      rw [htail, ih (data.drop l).length (by rw [List.length_drop]; omega)
        (data.drop l) rfl]

/-- The parallel engine agrees with the sequential engine whenever the
file is longer than one piece (the multi-piece path). -/
theorem checksum_file_multithreaded_multi (H : HashFn D) (pl : PieceLength)
    (data : List Nat) (hgt : pl.bytes < data.length) :
    checksum_file_multithreaded H pl data.length data = checksum_file H pl data := by
  have hl1 : 1 ≤ pl.bytes := Nat.one_le_two_pow
  have hl0 : 0 < pl.bytes := hl1
  have hqr : pl.bytes * (data.length / pl.bytes) + data.length % pl.bytes = data.length :=
    Nat.div_add_mod _ _
  have hr : data.length % pl.bytes < pl.bytes := Nat.mod_lt _ hl0
  have hq1 : 1 ≤ data.length / pl.bytes :=
    (Nat.one_le_div_iff hl0).mpr (Nat.le_of_lt hgt)
  have hnp2 : 2 ≤ data.length / pl.bytes
      + (if data.length % pl.bytes > 0 then 1 else 0) := by
    by_cases hr0 : data.length % pl.bytes = 0
    · have hite : (if data.length % pl.bytes > 0 then 1 else 0) = 0 := by simp [hr0]
      rw [hite]
      have hq2 : ¬ (data.length / pl.bytes ≤ 1) := by
        intro hle
        have : pl.bytes * (data.length / pl.bytes) ≤ pl.bytes * 1 :=
          Nat.mul_le_mul_left _ hle
        omega
      omega
    · have hite : (if data.length % pl.bytes > 0 then 1 else 0) = 1 := by
        simp [Nat.pos_of_ne_zero hr0]
      rw [hite]
      omega
  simp only [checksum_file_multithreaded]
  rw [if_neg (by omega)]
  have hworker : (List.range (data.length / pl.bytes
        + (if data.length % pl.bytes > 0 then 1 else 0))).map
        (fun idx =>
          if ((data.drop (idx * pl.bytes)).take pl.bytes).length
              ≠ (if idx ≠ (data.length / pl.bytes
                  + (if data.length % pl.bytes > 0 then 1 else 0)) - 1
                  ∨ data.length % pl.bytes = 0
                 then pl.bytes else data.length % pl.bytes) then none
          else ((((PieceV2Hasher.new pl).update H
              ((data.drop (idx * pl.bytes)).take pl.bytes)).finish H).elim none
            (fun r => some r.1)))
      = (List.range (data.length / pl.bytes
          + (if data.length % pl.bytes > 0 then 1 else 0))).map
        (fun idx => some (f_piece H pl ((data.drop (idx * pl.bytes)).take pl.bytes))) := by
    refine List.map_congr_left ?_
    intro idx hmem
    have hidx : idx < data.length / pl.bytes
        + (if data.length % pl.bytes > 0 then 1 else 0) := List.mem_range.mp hmem
    have hplen : ((data.drop (idx * pl.bytes)).take pl.bytes).length
        = min pl.bytes (data.length - idx * pl.bytes) := by
      rw [List.length_take, List.length_drop]
    rw [if_neg (by
      rw [hplen, chunk_expected_length pl.bytes data.length idx hl1 hidx]
      simp)]
    rw [piece_finish H pl _ (by rw [hplen]; omega)]
    simp only [Option.elim_some]
  rw [hworker, collect_map_some
    (fun idx => f_piece H pl ((data.drop (idx * pl.bytes)).take pl.bytes))]
  simp only [Option.elim_some]
  rw [checksum_file_spec H pl data (Nat.le_of_lt hgt)]
  have hchunks : (List.range (data.length / pl.bytes
        + (if data.length % pl.bytes > 0 then 1 else 0))).map
        (fun idx => f_piece H pl ((data.drop (idx * pl.bytes)).take pl.bytes))
      = (chunksOf pl.bytes data).map (f_piece H pl) := by
    rw [← range_map_chunks pl.bytes hl1 data.length data rfl, List.map_map]
    refine List.map_congr_left ?_
    intro a _
    simp only [Function.comp_apply]
  rw [hchunks]

/-! ## Lemmas: the torrent model -/

/-- A walk that starts from a freshly created (empty) directory always
succeeds: every entry it meets below that point is vacant. -/
theorem addAt_nil_entries_true :
    ∀ (rest : List String) (c : String) (f : File D),
      (addAt ([] : List (String × PathElement D)) c rest f).1 = true := by
  intro rest
  induction rest with
  | nil => intro c f; rfl
  | cons c' rest' ih =>
    intro c f
    simpa [addAt, lookupEntry] using ih c' f

/-- Re-inserting the value already bound to a key leaves the entry map
unchanged. -/
theorem setEntry_lookup_self :
    ∀ (d : List (String × PathElement D)) (k : String) (v : PathElement D),
      lookupEntry d k = some v → setEntry d k v = d := by
  intro d
  induction d with
  | nil => intro k v h; exact absurd h (by simp [lookupEntry])
  | cons p rest ih =>
    intro k v h
    by_cases hk : p.1 = k
    · have hv : v = p.2 := by
        simp [lookupEntry, List.find?_cons_of_pos, hk] at h
        exact h.symm
      rw [setEntry, if_pos hk, hv]
      cases p with
      | mk p1 p2 =>
        simp at hk
        subst hk
        rfl
    · have h' : lookupEntry rest k = some v := by
        simpa [lookupEntry, List.find?_cons_of_neg, hk] using h
      rw [setEntry, if_neg hk, ih k v h']

/-- A failing walk never modifies the directory it was given: the only
failure points are a pre-existing file on the path or an occupied final
entry, both of which are reached before any `or_insert_with` can create
a directory. -/
theorem addAt_false_unchanged :
    ∀ (rest : List String) (d : List (String × PathElement D)) (name : String)
      (f : File D),
      (addAt d name rest f).1 = false → (addAt d name rest f).2 = d := by
  intro rest
  induction rest with
  | nil =>
    intro d name f hfalse
    cases hl : lookupEntry d name with
    | none => simp [addAt, hl] at hfalse
    | some v => simp [addAt, hl]
  | cons c rest' ih =>
    intro d name f hfalse
    cases hl : lookupEntry d name with
    | none =>
      have htrue := addAt_nil_entries_true (D := D) rest' c f
      simp [addAt, hl, htrue] at hfalse
    | some pe =>
      cases pe with
      | file f' => simp [addAt, hl, elimPE]
      | dir sub =>
        have h1 : (addAt sub c rest' f).1 = false := by
          simpa [addAt, hl, elimPE] using hfalse
        have h2 := ih sub c f h1
        simp only [addAt, hl, Option.elim_some, elimPE]
        rw [h2]
        exact setEntry_lookup_self d name (.dir sub) hl

/-- A failing `add_file` leaves the whole torrent untouched: no file is
inserted, the piece-layers map is unchanged, and no intermediate
directory survives in the file tree. -/
theorem add_file_false_unchanged [DecidableEq D] (t : Torrent D) (path : List String)
    (f : File D) (pieces_layer : List D)
    (hfalse : (t.add_file path f pieces_layer).1 = false) :
    (t.add_file path f pieces_layer).2 = t := by
  cases path with
  | nil => rfl
  | cons first rest =>
    simp only [Torrent.add_file] at hfalse ⊢
    by_cases h1 : (addAt t.info.file_tree first rest f).1
    · rw [if_pos h1] at hfalse
      simp at hfalse
    · rw [if_neg h1] at hfalse ⊢
      have h2 := addAt_false_unchanged rest t.info.file_tree first f (by simpa using h1)
      rw [h2]

/-- Adding a single digest and closing the tree returns a singleton's
digest unchanged. -/
theorem root_hash_single (H : HashFn D) (L : Nat) (d : D) :
    root_hash H L [d] = d := rfl

/-- With the concrete `natHash` instantiation, the file-level root the
code computes (padding with `zero_root 1`) always exceeds by one the
root obtained by padding with the zero digest, on any three piece
digests — so the two padding policies genuinely differ. -/
theorem natHash_root_pad_difference (a b : Nat) :
    root_hash natHash 1 [a, a, b]
      = (Hasher.finish_tree natHash natHash.zero
          (([a, a, b] : List Nat).foldl
            (fun acc d => acc.add_block natHash d) Hasher.new)).fst + 1 := by
  simp [root_hash, Hasher.finish_tree, finishTreeGo, Hasher.add_block, settleGo,
    zero_root, natHash, Hasher.new, Entry.new]
  omega

/-! ## The claims -/

/-- C1: for every byte sequence and piece length, the parallel engine
(`checksum_file_multithreaded`, over a seekable source with the declared
length equal to the actual length) returns exactly the same
`(File, piece digest list)` pair as the sequential engine
(`checksum_file`) over the same bytes in order. -/
theorem c1_parallel_matches_sequential (H : HashFn D) (pl : PieceLength)
    (file_length : Nat) (data : List Nat) (h : file_length = data.length) :
    checksum_file_multithreaded H pl file_length data = checksum_file H pl data := by
  subst h
  by_cases hle : data.length ≤ pl.bytes
  · have hl0 : (0 : Nat) < pl.bytes := Nat.one_le_two_pow
    have hnp1 : data.length / pl.bytes
        + (if data.length % pl.bytes > 0 then 1 else 0) ≤ 1 := by
      by_cases heq : data.length = pl.bytes
      · rw [heq, Nat.div_self hl0, Nat.mod_self]
        simp
      · have hlt : data.length < pl.bytes := by omega
        rw [Nat.div_eq_of_lt hlt, Nat.mod_eq_of_lt hlt]
        split <;> omega
    simp only [checksum_file_multithreaded]
    rw [if_pos hnp1, List.take_of_length_le hle]
  · exact checksum_file_multithreaded_multi H pl data (by omega)

theorem c1_witness :
    (0 = ([] : List Nat).length)
    ∧ checksum_file_multithreaded natHash ⟨0⟩ 0 ([] : List Nat)
        = checksum_file natHash ⟨0⟩ ([] : List Nat) :=
  ⟨rfl, c1_parallel_matches_sequential natHash ⟨0⟩ 0 [] rfl⟩

/-- C2 (amended): for every input with at least one full piece, the
file-level `pieces_root` equals the merkle root obtained by feeding the
ordered piece digests into a fresh accumulator and closing the tree with
`finish_tree`, padded with `zero_root piece_length.layers` (the layer-
`layers` all-zero-leaf root), not with the all-zero digest itself; the
layers value therefore matters whenever padding occurs. -/
theorem c2_pieces_root_zero_root_padded (H : HashFn D) (pl : PieceLength)
    (data : List Nat) (hfull : pl.bytes ≤ data.length) :
    ∃ F P, checksum_file H pl data = some (F, P) ∧
      F.pieces_root = (Hasher.finish_tree H (zero_root H pl.layers)
        (P.foldl (fun acc d => acc.add_block H d) Hasher.new)).fst :=
  ⟨_, _, checksum_file_spec H pl data hfull, rfl⟩

theorem c2_witness :
    PieceLength.bytes ⟨0⟩ ≤ (List.replicate 16384 (0 : Nat)).length
    ∧ ∃ F P, checksum_file natHash ⟨0⟩ (List.replicate 16384 0) = some (F, P) ∧
        F.pieces_root = (Hasher.finish_tree natHash (zero_root natHash
            (PieceLength.mk 0).layers)
          (P.foldl (fun acc d => acc.add_block natHash d) Hasher.new)).fst :=
  ⟨by rw [List.length_replicate]; norm_num [PieceLength.bytes],
   c2_pieces_root_zero_root_padded natHash ⟨0⟩ _
     (by rw [List.length_replicate]; norm_num [PieceLength.bytes])⟩

/-- C2 (counterexample): on the 66560-byte input with 32 KiB pieces
(layers = 1, three pieces), the `pieces_root` the code computes differs
from the root obtained by padding the piece-digest tree with the
all-zero digest, refuting the claim that the pad is the zero digest and
that the layer value does not affect the result. -/
theorem c2_counterexample :
    ∃ F P, checksum_file natHash ⟨1⟩ (List.replicate 66560 0) = some (F, P) ∧
      F.pieces_root ≠ (Hasher.finish_tree natHash natHash.zero
        (P.foldl (fun acc d => acc.add_block natHash d) Hasher.new)).fst := by
  have hb : PieceLength.bytes ⟨1⟩ = 32768 := by norm_num [PieceLength.bytes]
  have h1 : chunksOf 32768 (List.replicate 66560 (0 : Nat))
      = List.replicate 32768 0 :: chunksOf 32768 (List.replicate 33792 0) := by
    rw [chunksOf_cons 32768 (by norm_num) _ (List.ne_nil_of_length_pos (by rw [List.length_replicate]; norm_num))]
    rw [List.take_replicate, List.drop_replicate]
    norm_num
  have h2 : chunksOf 32768 (List.replicate 33792 (0 : Nat))
      = List.replicate 32768 0 :: chunksOf 32768 (List.replicate 1024 0) := by
    rw [chunksOf_cons 32768 (by norm_num) _ (List.ne_nil_of_length_pos (by rw [List.length_replicate]; norm_num))]
    rw [List.take_replicate, List.drop_replicate]
    norm_num
  have h3 : chunksOf 32768 (List.replicate 1024 (0 : Nat)) = [List.replicate 1024 0] := by
    rw [chunksOf_cons 32768 (by norm_num) _ (List.ne_nil_of_length_pos (by rw [List.length_replicate]; norm_num))]
    rw [List.take_replicate, List.drop_replicate]
    norm_num
    simp [chunksOf, chunksOfGo]
  refine ⟨_, _, checksum_file_spec natHash ⟨1⟩ _
    (by rw [List.length_replicate, hb]; norm_num), ?_⟩
  rw [show (⟨1⟩ : PieceLength).layers = 1 from rfl]
  rw [hb, h1, h2, h3]
  simp only [List.map_cons, List.map_nil]
  have hk := natHash_root_pad_difference
    (f_piece natHash ⟨1⟩ (List.replicate 32768 0))
    (f_piece natHash ⟨1⟩ (List.replicate 1024 0))
  omega

/-- C3: on an input of exactly one piece (16384 bytes at layers = 0),
`checksum_file` returns a `File` whose `pieces_root` is the digest of
the sole piece, but the piece-digest list it returns is the singleton
holding that digest — not the empty list the claim (and the older
engine, `FileV2Hasher::finish` in `src/checksum.rs`) requires. -/
theorem c3_single_exact_piece :
    checksum_file natHash ⟨0⟩ (List.replicate 16384 0)
      = some ({ length := 16384,
                pieces_root := f_piece natHash ⟨0⟩ (List.replicate 16384 0) },
              [f_piece natHash ⟨0⟩ (List.replicate 16384 0)])
    ∧ [f_piece natHash ⟨0⟩ (List.replicate 16384 0)] ≠ ([] : List Nat) := by
  have hb : PieceLength.bytes ⟨0⟩ = 16384 := by norm_num [PieceLength.bytes]
  have hchunk : chunksOf 16384 (List.replicate 16384 (0 : Nat))
      = [List.replicate 16384 0] := by
    rw [chunksOf_cons 16384 (by norm_num) _ (List.ne_nil_of_length_pos (by rw [List.length_replicate]; norm_num))]
    rw [List.take_replicate, List.drop_replicate]
    norm_num
    simp [chunksOf, chunksOfGo]
  constructor
  · rw [checksum_file_spec natHash ⟨0⟩ _ (by rw [List.length_replicate, hb])]
    rw [hb, hchunk]
    simp only [List.map_cons, List.map_nil]
    rw [root_hash_single, List.length_replicate]
  · exact List.cons_ne_nil _ _

/-- C4: starting from the empty accumulator, after every sequence of
`add_block` calls, the stack layers are strictly increasing from the
most recently pushed entry (the top) to the oldest (the bottom) — i.e.
strictly decreasing from the bottom up — and in particular no two
entries anywhere in the stack share a layer value. -/
theorem c4_stack_layers_distinct (H : HashFn D) (blocks : List D) :
    stackSorted (blocks.foldl (fun acc d => acc.add_block H d) Hasher.new).stack = true
    ∧ ((blocks.foldl (fun acc d => acc.add_block H d) Hasher.new).stack.map
        Entry.layer).Nodup := by
  have key : ∀ (bs : List D) (h0 : Hasher D), stackSorted h0.stack = true →
      stackSorted (bs.foldl (fun acc d => acc.add_block H d) h0).stack = true := by
    intro bs
    induction bs with
    | nil => intro h0 hh; simpa using hh
    | cons b rest ih => intro h0 hh; exact ih _ (add_block_sorted H b h0 hh)
  have hs := key blocks Hasher.new rfl
  refine ⟨hs, ?_⟩
  exact List.Pairwise.map Entry.layer (fun a b hab => Nat.ne_of_lt hab)
    (stackSorted_pairwise hs)

/-- C5: a `PieceV2Hasher` that has received at most
`piece_length.bytes()` bytes through `update` since construction (or its
last reset, which returns it to the fresh state) finishes successfully:
the internal `finish_layer` returns a digest (the `unwrap` cannot
panic), and the hasher is reset to the fresh state afterwards. -/
theorem c5_finish_succeeds (H : HashFn D) (pl : PieceLength) (calls : List (List Nat))
    (h : (calls.map List.length).sum ≤ pl.bytes) :
    ∃ d, (calls.foldl (fun st data => st.update H data)
        (PieceV2Hasher.new pl)).finish H
      = some (d, PieceV2Hasher.new pl) := by
  have key : ∀ (cs : List (List Nat)) (st : PieceV2Hasher D),
      stackSorted st.merkle.stack = true → st.block_buf.length < BLOCK_SIZE →
      stackSorted (cs.foldl (fun st data => st.update H data) st).merkle.stack = true
      ∧ (cs.foldl (fun st data => st.update H data) st).block_buf.length < BLOCK_SIZE
      ∧ pending (cs.foldl (fun st data => st.update H data) st)
          = pending st + (cs.map List.length).sum
      ∧ (cs.foldl (fun st data => st.update H data) st).piece_length
          = st.piece_length := by
    intro cs
    induction cs with
    | nil => intro st h1 h2; exact ⟨h1, h2, by simp, rfl⟩
    | cons c rest ih =>
      intro st h1 h2
      simp only [List.foldl_cons, List.map_cons, List.sum_cons]
      obtain ⟨g1, g2, g3, g4⟩ := update_inv H st c h1 h2
      obtain ⟨k1, k2, k3, k4⟩ := ih (st.update H c) g1 g2
      refine ⟨k1, k2, ?_, by rw [k4, g4]⟩
      rw [k3, g3]
      ring
  obtain ⟨k1, k2, k3, k4⟩ := key calls (PieceV2Hasher.new pl) rfl
    (by norm_num [PieceV2Hasher.new, BLOCK_SIZE])
  have hpend : pending (calls.foldl (fun st data => st.update H data)
      (PieceV2Hasher.new pl)) = (calls.map List.length).sum := by
    rw [k3]
    simp [pending, PieceV2Hasher.new, Hasher.new, stackValue]
  obtain ⟨d, hd⟩ := finish_some H _ k1 (by
    rw [hpend, k4, show (PieceV2Hasher.new pl : PieceV2Hasher D).piece_length = pl from rfl]
    exact h)
  rw [k4, show (PieceV2Hasher.new pl : PieceV2Hasher D).piece_length = pl from rfl] at hd
  exact ⟨d, hd⟩

theorem c5_witness :
    (([[1, 2], [3]] : List (List Nat)).map List.length).sum ≤ PieceLength.bytes ⟨0⟩
    ∧ ∃ d, (([[1, 2], [3]] : List (List Nat)).foldl
        (fun st data => st.update natHash data) (PieceV2Hasher.new ⟨0⟩)).finish natHash
      = some (d, PieceV2Hasher.new ⟨0⟩) :=
  ⟨by decide, c5_finish_succeeds natHash ⟨0⟩ [[1, 2], [3]] (by decide)⟩

/-- C6 (amended): on a non-empty reachable accumulator (stack layers
strictly decreasing from the bottom up), `finish_layer(pad, target)`
fails (returns no digest) and resets exactly when the *first* entry of
the stack — the bottom, oldest, highest-layer one, `stack.first()` in
the source — has a layer exceeding the target, or equal to it while
more than one entry remains; in every other case it pads until a single
entry at exactly the target layer remains, returns that entry's digest,
and resets.  (The claim attributed the check to the most recently
pushed, top entry; the counterexample shows that reading is false.) -/
theorem c6_finish_layer_first_entry (H : HashFn D) (pad : D) (L : Nat) (h : Hasher D)
    (hs : stackSorted h.stack = true) (hne : h.stack ≠ []) :
    ((h.finish_layer H pad L).fst = none ↔
      (L < bottomLayer h.stack ∨ (bottomLayer h.stack = L ∧ 1 < h.stack.length)))
    ∧ (h.finish_layer H pad L).snd = Hasher.new
    ∧ (¬ (L < bottomLayer h.stack ∨ (bottomLayer h.stack = L ∧ 1 < h.stack.length)) →
        ∃ e : Entry D, (finishLayerGo H pad L (2 ^ L + 1) h).stack = [e]
          ∧ e.layer = L ∧ (h.finish_layer H pad L).fst = some e.digest) := by
  by_cases hcond : L < bottomLayer h.stack
      ∨ (bottomLayer h.stack = L ∧ 1 < h.stack.length)
  · have hn := finish_layer_none H pad L h hne hcond
    rw [hn]
    exact ⟨by simp [hcond], rfl, fun hc => absurd hcond hc⟩
  · have hBle : bottomLayer h.stack ≤ L := by
      by_contra hgt
      exact hcond (Or.inl (by omega))
    have hvle : stackValue h.stack ≤ 2 ^ L := by
      by_cases hBL : bottomLayer h.stack = L
      · have hlen : ¬ 1 < h.stack.length := fun hl => hcond (Or.inr ⟨hBL, hl⟩)
        match hm : h.stack, hne with
        | [e], _ =>
          have hb : bottomLayer [e] = e.layer := by simp [bottomLayer]
          rw [hm] at hBL
          rw [hb] at hBL
          rw [stackValue_cons, stackValue_nil, hBL]
          omega
        | e :: f :: rest, _ =>
          exfalso
          apply hlen
          rw [hm]
          simp
      · have hBlt : bottomLayer h.stack < L := by omega
        match hm : h.stack, hne with
        | e :: s, _ =>
          have hup := stackValue_add_head_le s e (by rw [← hm]; exact hs)
          rw [← hm] at hup
          have hpow : 2 ^ (bottomLayer h.stack + 1) ≤ 2 ^ L :=
            Nat.pow_le_pow_right (by norm_num) (by omega)
          have hpos : 0 < 2 ^ e.layer := pow_pos (by norm_num) _
          rw [← hm]
          omega
    obtain ⟨e, helayer, hgo, hfl⟩ := finish_layer_some H pad L h hs hvle
    rw [hfl]
    exact ⟨by simp [hcond], rfl, fun _ => ⟨e, hgo, helayer, rfl⟩⟩

theorem c6_witness :
    stackSorted (⟨[⟨0, 7⟩]⟩ : Hasher Nat).stack = true
    ∧ (⟨[⟨0, 7⟩]⟩ : Hasher Nat).stack ≠ []
    ∧ ((((⟨[⟨0, 7⟩]⟩ : Hasher Nat).finish_layer natHash 0 0).fst = none ↔
          (0 < bottomLayer (⟨[⟨0, 7⟩]⟩ : Hasher Nat).stack
            ∨ (bottomLayer (⟨[⟨0, 7⟩]⟩ : Hasher Nat).stack = 0
                ∧ 1 < (⟨[⟨0, 7⟩]⟩ : Hasher Nat).stack.length)))
        ∧ ((⟨[⟨0, 7⟩]⟩ : Hasher Nat).finish_layer natHash 0 0).snd = Hasher.new
        ∧ (¬ (0 < bottomLayer (⟨[⟨0, 7⟩]⟩ : Hasher Nat).stack
              ∨ (bottomLayer (⟨[⟨0, 7⟩]⟩ : Hasher Nat).stack = 0
                  ∧ 1 < (⟨[⟨0, 7⟩]⟩ : Hasher Nat).stack.length)) →
            ∃ e : Entry Nat,
              (finishLayerGo natHash 0 0 (2 ^ 0 + 1) (⟨[⟨0, 7⟩]⟩ : Hasher Nat)).stack = [e]
              ∧ e.layer = 0
              ∧ ((⟨[⟨0, 7⟩]⟩ : Hasher Nat).finish_layer natHash 0 0).fst = some e.digest)) :=
  ⟨by decide, by simp,
   c6_finish_layer_first_entry natHash 0 0 ⟨[⟨0, 7⟩]⟩ (by decide) (by simp)⟩

/-- C6 (counterexample): after pushing three blocks the stack is
`[⟨0, 30⟩ (top), ⟨1, 31⟩ (bottom)]`.  With target layer 1 the *top*
(most recently pushed) entry has layer 0, so under the claim's reading
(top entry exceeds the target, or equals it with company) the check
would pass and a digest be returned — but the code checks the *first*
(bottom) entry, whose layer equals the target while two entries remain,
and returns `none`. -/
theorem c6_counterexample :
    ((([10, 20, 30] : List Nat).foldl (fun acc d => acc.add_block natHash d)
        Hasher.new).finish_layer natHash 0 1).fst = none
    ∧ (([10, 20, 30] : List Nat).foldl (fun acc d => acc.add_block natHash d)
        Hasher.new).stack.head? = some ⟨0, 30⟩
    ∧ ¬ ((1 : Nat) < 0
        ∨ ((0 : Nat) = 1
            ∧ 1 < (([10, 20, 30] : List Nat).foldl (fun acc d => acc.add_block natHash d)
                Hasher.new).stack.length)) := by
  refine ⟨by decide, by decide, ?_⟩
  decide

/-- C7: the canonical encoding of a `File` always emits the `"length"`
key in the inner dictionary, and emits the `"pieces root"` key exactly
when the file's length is nonzero (in particular never for a length-0
file). -/
theorem c7_pieces_root_key_iff (f : File D) :
    "length" ∈ innerFileKeys (File.encode f)
    ∧ ("pieces root" ∈ innerFileKeys (File.encode f) ↔ f.length ≠ 0) := by
  by_cases h : f.length = 0
  · constructor <;> simp [File.encode, innerFileKeys, h]
  · constructor <;> simp [File.encode, innerFileKeys, h]

theorem log2Go_correct :
    ∀ (fuel n count : Nat), n ≤ fuel → ∀ c,
      (log2Go fuel n count = some c ↔ ∃ j, n = 2 ^ j ∧ c = count + j) := by
  intro fuel
  induction fuel with
  | zero =>
    intro n count hle c
    have hn : n = 0 := Nat.le_zero.mp hle
    subst hn
    constructor
    · intro h
      exact absurd h (by simp [log2Go])
    · rintro ⟨j, hj, _⟩
      have hp : 0 < 2 ^ j := pow_pos (show (0 : Nat) < 2 by norm_num) j
      omega
  | succ m ih =>
    intro n count hle c
    rw [log2Go]
    by_cases hpar : n % 2 ≠ 1
    · rw [if_pos hpar]
      rw [ih (n / 2) (count + 1) (by omega) c]
      constructor
      · rintro ⟨j, hj1, hj2⟩
        refine ⟨j + 1, ?_, by omega⟩
        have h2 : n = 2 * (n / 2) := by omega
        rw [h2, hj1, pow_succ]
        ring
      · rintro ⟨j, hj1, hj2⟩
        have hj0 : j ≠ 0 := by
          intro h0
          subst h0
          simp at hj1
          omega
        obtain ⟨j', rfl⟩ : ∃ j', j = j' + 1 := ⟨j - 1, by omega⟩
        refine ⟨j', ?_, by omega⟩
        have h2 : n = 2 * 2 ^ j' := by
          rw [hj1, pow_succ]; ring
        omega
    · rw [if_neg hpar]
      have hodd : n % 2 = 1 := by omega
      by_cases hz : n / 2 = 0
      · rw [if_pos hz]
        have hn1 : n = 1 := by omega
        subst hn1
        constructor
        · intro hsome
          have hc : c = count := (Option.some.inj hsome).symm
          exact ⟨0, by simp, by omega⟩
        · rintro ⟨j, hj1, hj2⟩
          cases j with
          | zero =>
            simp at hj2
            rw [hj2]
          | succ j' =>
            exfalso
            have h2 : (1 : Nat) = 2 * 2 ^ j' := by
              rw [hj1, pow_succ]; ring
            omega
      · rw [if_neg hz]
        constructor
        · intro hsome
          exact absurd hsome (by simp)
        · rintro ⟨j, hj1, hj2⟩
          exfalso
          cases j with
          | zero =>
            simp at hj1
            omega
          | succ j' =>
            have h2 : n = 2 * 2 ^ j' := by
              rw [hj1, pow_succ]; ring
            omega

theorem log2_correct (n k : Nat) : log2 n = some k ↔ n = 2 ^ k := by
  rw [log2]
  by_cases h0 : n = 0
  · subst h0
    rw [if_pos rfl]
    constructor
    · intro h
      exact absurd h (by simp)
    · intro h
      have hp : 0 < 2 ^ k := pow_pos (show (0 : Nat) < 2 by norm_num) k
      omega
  · rw [if_neg h0, log2Go_correct (n + 1) n 0 (by omega) k]
    constructor
    · rintro ⟨j, hj1, hj2⟩
      rw [hj1, hj2]
      simp
    · intro h
      exact ⟨k, h, by omega⟩

/-- C8: `PieceLength::from_bytes(n)` returns `Some { layers }` exactly
when `n = 16384 * 2 ^ layers` (a power of two with exponent at least
14), and then `bytes()` on the result round-trips to `n`; every other
`n` (0, non-powers, powers below 2^14) yields `None`. -/
theorem c8_from_bytes_iff (n layers : Nat) :
    PieceLength.from_bytes n = some ⟨layers⟩ ↔
      (n = 16384 * 2 ^ layers ∧ PieceLength.bytes ⟨layers⟩ = n) := by
  have hpow : (16384 : Nat) * 2 ^ layers = 2 ^ (layers + 14) := by
    rw [pow_add]
    norm_num
    ring
  rw [PieceLength.from_bytes]
  cases hlog : log2 n with
  | none =>
    simp only [Option.elim_none]
    constructor
    · intro h
      exact absurd h (by simp)
    · rintro ⟨h1, _⟩
      have : log2 n = some (layers + 14) := (log2_correct n (layers + 14)).mpr (by omega)
      rw [hlog] at this
      exact absurd this (by simp)
  | some k =>
    simp only [Option.elim_some]
    have hk : n = 2 ^ k := (log2_correct n k).mp hlog
    by_cases h14 : 14 ≤ k
    · rw [if_pos h14]
      constructor
      · intro hsome
        have hl : k - 14 = layers := by
          have := Option.some.inj hsome
          exact congrArg PieceLength.layers this
        have hkeq : k = layers + 14 := by omega
        subst hkeq
        refine ⟨by omega, ?_⟩
        rw [PieceLength.bytes]
        show (2 : Nat) ^ (layers + 14) = n
        omega
      · rintro ⟨h1, _⟩
        have hkeq : k = layers + 14 := by
          have h2 : (2 : Nat) ^ k = 2 ^ (layers + 14) := by omega
          exact Nat.pow_right_injective (by norm_num) h2
        subst hkeq
        simp
    · rw [if_neg h14]
      constructor
      · intro h
        exact absurd h (by simp)
      · rintro ⟨h1, _⟩
        exfalso
        have hkeq : k = layers + 14 := by
          have h2 : (2 : Nat) ^ k = 2 ^ (layers + 14) := by omega
          exact Nat.pow_right_injective (by norm_num) h2
        omega

/-- C9: `finish_tree(pad)` on an empty accumulator pushes the pad once
and returns it; hence `root_hash(layer, [])` is `zero_root layer`, and
`zero_root 0` is the all-zero digest. -/
theorem c9_finish_tree_empty (H : HashFn D) (pad : D) :
    (Hasher.finish_tree H pad Hasher.new).fst = pad
    ∧ (∀ layer : Nat, root_hash H layer [] = zero_root H layer)
    ∧ zero_root H 0 = H.zero :=
  ⟨rfl, fun _ => rfl, rfl⟩

/-- C10 (amended): whenever `Torrent::add_file` returns false (duplicate
path, or a path segment already occupied by a file), the torrent is
completely unchanged: the `File` is not inserted, `piece_layers` is
untouched, and the file tree is exactly as before — no intermediate
directory created during the walk can survive a failure, because every
failure is detected on a fully pre-existing path prefix. -/
theorem c10_add_file_failure_unchanged [DecidableEq D] (t : Torrent D)
    (path : List String) (f : File D) (pieces_layer : List D)
    (hfalse : (t.add_file path f pieces_layer).1 = false) :
    (t.add_file path f pieces_layer).2 = t :=
  add_file_false_unchanged t path f pieces_layer hfalse

theorem c10_witness :
    ((Torrent.add_file
        ⟨"a", ⟨"n", ⟨0⟩, [("x", PathElement.file ⟨0, 0⟩)]⟩, ([] : List (Nat × List Nat))⟩
        ["x"] ⟨1, 1⟩ ([] : List Nat)).1 = false)
    ∧ (Torrent.add_file
        ⟨"a", ⟨"n", ⟨0⟩, [("x", PathElement.file ⟨0, 0⟩)]⟩, ([] : List (Nat × List Nat))⟩
        ["x"] ⟨1, 1⟩ ([] : List Nat)).2
      = ⟨"a", ⟨"n", ⟨0⟩, [("x", PathElement.file ⟨0, 0⟩)]⟩, ([] : List (Nat × List Nat))⟩ :=
  ⟨rfl,
   c10_add_file_failure_unchanged
     ⟨"a", ⟨"n", ⟨0⟩, [("x", PathElement.file ⟨0, 0⟩)]⟩, ([] : List (Nat × List Nat))⟩
     ["x"] ⟨1, 1⟩ ([] : List Nat) rfl⟩

/-- C10 (counterexample): the claim's caveat — that intermediate
directories created while walking the path may remain in the file tree,
so the tree is not guaranteed unchanged on failure — is false: there is
no failing `add_file` call that changes the file tree. -/
theorem c10_counterexample :
    ¬ ∃ (t : Torrent Nat) (path : List String) (f : File Nat)
        (pieces_layer : List Nat),
      (t.add_file path f pieces_layer).1 = false ∧
      (t.add_file path f pieces_layer).2.info.file_tree ≠ t.info.file_tree := by
  rintro ⟨t, path, f, pl, h1, h2⟩
  exact h2 (congrArg (fun x => x.info.file_tree)
    (add_file_false_unchanged t path f pl h1))

end MkTorrent
